import Mathlib

/-!
Verification development for the near-operation-file fragment resolver
(`packages/presets/near-operation-file/src/fragment-resolver.ts`).

The source file is shallowly embedded below.  External collaborators
(GraphQL AST printing, schema type lookup, possible-type expansion, the
`BaseVisitor` naming authority, file-path derivation, import-statement
rendering and the fragment-usage resolver) are modelled as explicit data
or function parameters, following the interface the specification gives
for each of them.
-/

set_option maxHeartbeats 1000000

namespace FragmentResolver

/-! ### GraphQL AST fragments (collaborator data model)

A fragment definition node carries its name, the name of the type in its
type condition, and a selection set.  Selections are fields (possibly
with a nested selection set) or fragment spreads; this is the part of
the GraphQL AST the resolver reads. -/

inductive Selection where
  | field (fieldName : String) (selections : List Selection)
  | fragmentSpread (spreadName : String)

mutual
/-- Boolean structural equality on selections. -/
def Selection.beq : Selection → Selection → Bool
  | .fragmentSpread a, .fragmentSpread b => a == b
  | .field a as, .field b bs => a == b && Selection.beqList as bs
  | _, _ => false
/-- Boolean structural equality on selection lists. -/
def Selection.beqList : List Selection → List Selection → Bool
  | [], [] => true
  | x :: xs, y :: ys => Selection.beq x y && Selection.beqList xs ys
  | _, _ => false
end

mutual
theorem Selection.beq_iff : ∀ a b : Selection, (Selection.beq a b = true) ↔ a = b
  | .fragmentSpread a, .fragmentSpread b => by simp [Selection.beq]
  | .fragmentSpread _, .field _ _ => by simp [Selection.beq]
  | .field _ _, .fragmentSpread _ => by simp [Selection.beq]
  | .field a as, .field b bs => by
      simp [Selection.beq, Selection.beqList_iff as bs]
theorem Selection.beqList_iff :
    ∀ as bs : List Selection, (Selection.beqList as bs = true) ↔ as = bs
  | [], [] => by simp [Selection.beqList]
  | [], _ :: _ => by simp [Selection.beqList]
  | _ :: _, [] => by simp [Selection.beqList]
  | a :: as, b :: bs => by
      simp [Selection.beqList, Selection.beq_iff a b, Selection.beqList_iff as bs]
end

instance : DecidableEq Selection :=
  fun a b => decidable_of_iff _ (Selection.beq_iff a b)

instance {ε α : Type} [DecidableEq ε] [DecidableEq α] : DecidableEq (Except ε α) :=
  fun a b =>
    match a, b with
    | .ok x, .ok y => decidable_of_iff (x = y) (by simp)
    | .error e, .error f => decidable_of_iff (e = f) (by simp)
    | .ok _, .error _ => isFalse (fun h => by cases h)
    | .error _, .ok _ => isFalse (fun h => by cases h)

structure FragmentDefinitionNode where
  name : String
  typeCondition : String
  selections : List Selection
deriving DecidableEq

/-! The surrounding AST library's `print` serializes a node to text; the
resolver only compares serialized forms for equality ("structural
equality (serialized form comparison)").  Modelled from the spec. -/

mutual
/-- Serialize one selection. -/
def printSelection : Selection → String
  | .fragmentSpread n => "..." ++ n
  | .field n sels => n ++ printSelectionList sels
/-- Serialize a selection list. -/
def printSelectionList : List Selection → String
  | [] => ""
  | s :: rest => " \x7b " ++ printSelection s ++ " \x7d" ++ printSelectionList rest
end

def printFragment (f : FragmentDefinitionNode) : String :=
  "fragment " ++ f.name ++ " on " ++ f.typeCondition ++ printSelectionList f.selections

/-- Document definitions: the builder only distinguishes fragment
definitions (kind `FRAGMENT_DEFINITION`) from every other kind. -/
inductive Definition where
  | fragmentDefinition (f : FragmentDefinitionNode)
  | operationDefinition (selections : List Selection)
deriving DecidableEq

structure DocumentNode where
  definitions : List Definition
deriving DecidableEq

structure DocumentRecord where
  location : String
  document : DocumentNode
deriving DecidableEq

/-! ### Schema (collaborator) -/

/-- Modelled from the spec: a named schema type, carrying the ordered
list of concrete object-type names its possible-type expansion yields
(an object type expands to itself, an interface or union to its
implementors or members, possibly none). -/
structure GraphQLNamedType where
  possibleTypeNames : List String
deriving DecidableEq

/-- Modelled from the spec: schema type lookup
`getType(typeName) → TypeOrNull`. -/
structure GraphQLSchema where
  getType : String → Option GraphQLNamedType

/-- Modelled from the spec: possible-type expansion
`getPossibleTypes(schema, type) → ordered sequence of concrete type
descriptors` (the resolver only reads each descriptor's name). -/
def getPossibleTypes (_schemaObject : GraphQLSchema) (t : GraphQLNamedType) : List String :=
  t.possibleTypeNames

/-! ### Configuration, plugins and the naming authority (collaborators) -/

/-- Document representation modes of `visitor-plugin-common`. -/
inductive DocumentMode where
  | graphQLTag
  | documentNode
  | documentNodeImportFragments
  | external
  | string
deriving DecidableEq

/-- Modelled from the spec: the naming authority of the `BaseVisitor`
built at the top of `buildFragmentRegistry` (its construction from the
raw config lives in `visitor-plugin-common`).  `convertName` takes the
name, the `useTypesPrefix` flag and the suffix. -/
structure BaseVisitor where
  getFragmentVariableName : String → String
  getFragmentSuffix : String → String
  convertName : String → Bool → String → String

/-- List of plugins that creates document variables, verbatim from the
source. -/
def DOC_VAR_PLUGINS : List String :=
  [ "typescript-react-apollo"
  , "typescript-apollo-angular"
  , "typescript-document-nodes"
  , "typescript-generic-sdk"
  , "typescript-graphql-request"
  , "typescript-oclif"
  , "typescript-stencil-apollo"
  , "typescript-urql"
  , "typescript-vue-apollo" ]

/-- Modelled from the spec: JavaScript `toLowerCase` on one character of
the ASCII plugin keys the resolver compares. -/
def lowerChar (c : Char) : Char :=
  if 'A' ≤ c ∧ c ≤ 'Z' then Char.ofNat (c.toNat + 32) else c

/-- Modelled from the spec: JavaScript `toLowerCase` on an ASCII plugin
key. -/
def lowerString (s : String) : String :=
  { data := s.data.map lowerChar }

/-- Source `isUsingDocVarPlugin`: each plugin record is represented by
its first key; the key is lowercased and matched against the table
directly or with the `@graphql-codegen/` package prefixing. -/
def isUsingDocVarPlugin (plugins : List String) : Bool :=
  plugins.any (fun pluginRecordKey =>
    let pluginKey := lowerString pluginRecordKey
    DOC_VAR_PLUGINS.any (fun t => pluginKey == t || ("@graphql-codegen/" ++ t) == pluginKey))

/-! ### Insertion-ordered string-keyed maps (JS object semantics)

JS objects with string keys preserve insertion order; assigning to an
existing key updates the value in place.  JS `Set` preserves insertion
order and ignores re-added elements. -/

def assocLookup {α : Type} : List (String × α) → String → Option α
  | [], _ => none
  | (k, v) :: rest, key => if k = key then some v else assocLookup rest key

def assocUpdate {α : Type} : List (String × α) → String → α → List (String × α)
  | [], _, _ => []
  | (k, w) :: rest, key, v =>
    if k = key then (key, v) :: rest else (k, w) :: assocUpdate rest key v

def assocInsert {α : Type} (m : List (String × α)) (key : String) (v : α) :
    List (String × α) :=
  if (assocLookup m key).isSome then
    assocUpdate m key v
  else
    m ++ [(key, v)]

def addToSet (s : List String) (x : String) : List String :=
  if x ∈ s then s else s ++ [x]

def setOfList (xs : List String) : List String :=
  xs.foldl addToSet []

/-! ### The fragment registry builder (source lines 26–156) -/

structure FragmentRegistryEntry where
  filePath : String
  importNames : List String
  onType : String
  node : FragmentDefinitionNode
deriving DecidableEq

abbrev FragmentRegistry : Type := List (String × FragmentRegistryEntry)

structure ImportSource where
  path : String
  names : List String
deriving DecidableEq

structure ImportStatementArgs where
  baseOutputDir : String
  relativeOutputPath : String
  importSource : ImportSource
deriving DecidableEq

/-- Collaborator options handed to the resolver (`generateFilePath`,
`generateImportStatement`). -/
structure DocumentImportResolverOptions where
  generateFilePath : String → String
  generateImportStatement : ImportStatementArgs → String

/-- The preset arguments the resolver reads: the ordered document set,
the plugin list, the base output dir, `config.documentMode` and the
naming authority obtained from the config. -/
structure PresetFnArgs where
  documents : List DocumentRecord
  plugins : List String
  baseOutputDir : String
  documentMode : Option DocumentMode
  baseVisitor : BaseVisitor

/-- Source `getAllFragmentSubTypes` (lines 72–111): the document-variable
symbol (when a doc-var plugin is active and the document mode is none of
`documentNode`, `external`, `documentNodeImportFragments`), followed by
the type-specialized names driven by the possible-type expansion. -/
def getAllFragmentSubTypes (po : PresetFnArgs) (possibleTypes : List String)
    (name : String) : List String :=
  let subTypes : List String := []
  let hasDocVarPlugin := isUsingDocVarPlugin po.plugins
  let documentMode := po.documentMode.getD DocumentMode.graphQLTag
  let subTypes :=
    if hasDocVarPlugin ∧
        documentMode ≠ DocumentMode.documentNode ∧
        documentMode ≠ DocumentMode.external ∧
        documentMode ≠ DocumentMode.documentNodeImportFragments then
      subTypes ++ [po.baseVisitor.getFragmentVariableName name]
    else subTypes
  let fragmentSuffix := po.baseVisitor.getFragmentSuffix name
  if possibleTypes.length = 1 then
    subTypes ++ [po.baseVisitor.convertName name true fragmentSuffix]
  else if possibleTypes.length ≠ 0 then
    subTypes ++ possibleTypes.map (fun typeName =>
      po.baseVisitor.convertName name true ("_" ++ typeName ++ "_" ++ fragmentSuffix))
  else
    subTypes

/-- Fragment definitions of a document, in definition order (the
source's filter on `Kind.FRAGMENT_DEFINITION`). -/
def docFragments (d : DocumentNode) : List FragmentDefinitionNode :=
  d.definitions.filterMap (fun df =>
    match df with
    | .fragmentDefinition f => some f
    | .operationDefinition _ => none)

/-- Error message thrown for a fragment whose type condition does not
resolve (source line 124). -/
def unknownTypeMessage (fragmentName typeName : String) : String :=
  "Fragment \"" ++ fragmentName ++ "\" is set on non-existing type \"" ++ typeName ++ "\"!"

/-- Error message thrown after the scan when duplicate fragment names
with differing bodies were found (source line 153). -/
def duplicateMessage (names : List String) : String :=
  "Multiple fragments with the name(s) \"" ++ String.intercalate ", " names ++ "\" were found."

/-- The registry entry computed for one fragment definition found at
`location` (source lines 129–145): the possible-type expansion of its
resolved condition type, the generated file path of its document, and
the import names.  Total helper; the builder itself rejects the
`getType = none` case before this value is used. -/
def entryFor (co : DocumentImportResolverOptions) (po : PresetFnArgs)
    (schemaObject : GraphQLSchema) (location : String)
    (fragment : FragmentDefinitionNode) : FragmentRegistryEntry :=
  let possibleTypes :=
    match schemaObject.getType fragment.typeCondition with
    | some t => getPossibleTypes schemaObject t
    | none => []
  { filePath := co.generateFilePath location
  , importNames := getAllFragmentSubTypes po possibleTypes fragment.name
  , onType := fragment.typeCondition
  , node := fragment }

/-- State threaded through the scan: the registry under construction and
the batched list of duplicate fragment names. -/
structure BuildState where
  registry : FragmentRegistry
  duplicateFragmentNames : List String

/-- One iteration of the source's inner loop (lines 120–146): resolve the
type condition or throw, record a duplicate name when the previous entry
for this name prints differently, then insert the (new) entry. -/
def processFragment (co : DocumentImportResolverOptions) (po : PresetFnArgs)
    (schemaObject : GraphQLSchema) (st : BuildState) (location : String)
    (fragment : FragmentDefinitionNode) : Except String BuildState :=
  match schemaObject.getType fragment.typeCondition with
  | none => .error (unknownTypeMessage fragment.name fragment.typeCondition)
  | some _ =>
    let duplicateFragmentNames :=
      match assocLookup st.registry fragment.name with
      | some prev =>
        if printFragment fragment ≠ printFragment prev.node then
          st.duplicateFragmentNames ++ [fragment.name]
        else st.duplicateFragmentNames
      | none => st.duplicateFragmentNames
    .ok { registry :=
            assocInsert st.registry fragment.name (entryFor co po schemaObject location fragment)
        , duplicateFragmentNames := duplicateFragmentNames }

/-- One iteration of the source's `reduce` over documents
(lines 114–150). -/
def processDocument (co : DocumentImportResolverOptions) (po : PresetFnArgs)
    (schemaObject : GraphQLSchema) (st : BuildState) (d : DocumentRecord) :
    Except String BuildState :=
  (docFragments d.document).foldlM
    (fun s f => processFragment co po schemaObject s d.location f) st

/-- Source `buildFragmentRegistry` (lines 59–156): scan every document,
then fail with the batched duplicate-name error when any was collected,
otherwise return the registry. -/
def buildFragmentRegistry (co : DocumentImportResolverOptions) (po : PresetFnArgs)
    (schemaObject : GraphQLSchema) : Except String FragmentRegistry := do
  let st ← po.documents.foldlM (processDocument co po schemaObject)
    { registry := [], duplicateFragmentNames := [] }
  if st.duplicateFragmentNames ≠ [] then
    .error (duplicateMessage st.duplicateFragmentNames)
  else
    .ok st.registry

/-! ### The import / reference planner (source lines 158–218) -/

/-- One element of `externalFragments` (`LoadedFragment<{level}>`). -/
structure ExternalFragment where
  level : Nat
  isExternal : Bool
  name : String
  onType : String
  node : FragmentDefinitionNode
deriving DecidableEq

/-- Import groups: the `fragmentFileImports` object, mapping a fragment
file path to the insertion-ordered set of names imported from it. -/
abbrev ImportGroups : Type := List (String × List String)

/-- Update of `fragmentFileImports` for one depth-0 fragment (source
lines 183–187): create the group as `new Set(importNames)` when absent,
otherwise add each import name to the existing set. -/
def addImports (groups : ImportGroups) (filePath : String) (importNames : List String) :
    ImportGroups :=
  match assocLookup groups filePath with
  | none => groups ++ [(filePath, setOfList importNames)]
  | some s => assocInsert groups filePath (importNames.foldl addToSet s)

/-- One iteration of the planner's loop over the depth map (source
lines 176–202): a name missing from the registry is skipped; a depth-0
name contributes its entry's import names to the group keyed by the
entry's file path; every registered name is appended to
`externalFragments`. -/
def planStep (fragmentRegistry : FragmentRegistry)
    (st : List ExternalFragment × ImportGroups) (p : String × Nat) :
    List ExternalFragment × ImportGroups :=
  let fragmentName := p.1
  let level := p.2
  match assocLookup fragmentRegistry fragmentName with
  | none => st
  | some fragmentDetails =>
    let groups :=
      if level = 0 then
        addImports st.2 fragmentDetails.filePath fragmentDetails.importNames
      else st.2
    (st.1 ++ [{ level := level
              , isExternal := true
              , name := fragmentName
              , onType := fragmentDetails.onType
              , node := fragmentDetails.node }]
    , groups)

/-- The planner's accumulation over the whole depth map. -/
def planState (fragmentRegistry : FragmentRegistry) (fragmentsInUse : List (String × Nat)) :
    List ExternalFragment × ImportGroups :=
  fragmentsInUse.foldl (planStep fragmentRegistry) ([], [])

/-- Result of planning one output file. -/
structure ResolveResult where
  externalFragments : List ExternalFragment
  fragmentImportStatements : List String
deriving DecidableEq

/-- Core of `resolveFragments` (source lines 170–216), taking the depth
map produced by the usage resolver as an argument: accumulate
`externalFragments` and the import groups, then render one import
statement per group in first-discovery order. -/
def resolveFragmentsCore (co : DocumentImportResolverOptions) (po : PresetFnArgs)
    (fragmentRegistry : FragmentRegistry) (generatedFilePath : String)
    (fragmentsInUse : List (String × Nat)) : ResolveResult :=
  let st := planState fragmentRegistry fragmentsInUse
  { externalFragments := st.1
  , fragmentImportStatements := st.2.map (fun g =>
      co.generateImportStatement
        { baseOutputDir := po.baseOutputDir
        , relativeOutputPath := generatedFilePath
        , importSource := { path := g.1, names := g.2 } }) }

/-! ### The usage resolver (external contract, modelled from the spec) -/

mutual
/-- Fragment spread names occurring in one selection, in order,
recursing into field sub-selections. -/
def spreadsOfSelection : Selection → List String
  | .field _ sels => spreadsOfSelections sels
  | .fragmentSpread n => [n]
/-- Fragment spread names occurring in a selection list, in order. -/
def spreadsOfSelections : List Selection → List String
  | [] => []
  | s :: rest => spreadsOfSelection s ++ spreadsOfSelections rest
end

/-- Fragment spread names a document spreads directly, in order. -/
def docDirectSpreads (d : DocumentNode) : List String :=
  d.definitions.flatMap (fun df =>
    match df with
    | .fragmentDefinition f => spreadsOfSelections f.selections
    | .operationDefinition sels => spreadsOfSelections sels)

/-- Append the registered names of `frontier` that are not yet assigned,
at depth `level`, keeping first-discovery order. -/
def addAtLevel (fragmentRegistry : FragmentRegistry) (acc : List (String × Nat))
    (frontier : List String) (level : Nat) : List (String × Nat) :=
  frontier.foldl (fun a n =>
    if (assocLookup a n).isSome then a
    else if (assocLookup fragmentRegistry n).isSome then a ++ [(n, level)]
    else a) acc

/-- Names assigned a depth by `addAtLevel` that `acc` did not have. -/
def newNames (acc acc2 : List (String × Nat)) : List String :=
  (acc2.drop acc.length).map (fun p => p.1)

/-- Modelled from the spec: the usage resolver
(`extractExternalFragmentsInUse`, defined in `./utils`, outside this
file): given an output document and the registry, return an ordered
mapping from referenced fragment name to depth, where depth 0 means the
document spreads the fragment directly and depth k+1 means it is
reached only through the body of a depth-k fragment; only names present
in the registry are reported.  Breadth-first walk, bounded by the
registry size for cycle protection. -/
def usageWalk (fragmentRegistry : FragmentRegistry) :
    Nat → List (String × Nat) → List String → Nat → List (String × Nat)
  | 0, acc, _, _ => acc
  | fuel + 1, acc, frontier, level =>
    let acc2 := addAtLevel fragmentRegistry acc frontier level
    let next := (newNames acc acc2).flatMap (fun n =>
      match assocLookup fragmentRegistry n with
      | some e => spreadsOfSelections e.node.selections
      | none => [])
    if next.isEmpty then acc2
    else usageWalk fragmentRegistry fuel acc2 next (level + 1)

def extractExternalFragmentsInUse (documentFileContent : DocumentNode)
    (fragmentRegistry : FragmentRegistry) : List (String × Nat) :=
  usageWalk fragmentRegistry (fragmentRegistry.length + 1) []
    (docDirectSpreads documentFileContent) 0

/-- Source `resolveFragments` (lines 170–216): run the usage resolver,
then plan. -/
def resolveFragments (co : DocumentImportResolverOptions) (po : PresetFnArgs)
    (fragmentRegistry : FragmentRegistry) (generatedFilePath : String)
    (documentFileContent : DocumentNode) : ResolveResult :=
  resolveFragmentsCore co po fragmentRegistry generatedFilePath
    (extractExternalFragmentsInUse documentFileContent fragmentRegistry)

/-- Source `buildFragmentResolver` (lines 161–218): build the registry,
then close over it. -/
def buildFragmentResolver (co : DocumentImportResolverOptions) (po : PresetFnArgs)
    (schemaObject : GraphQLSchema) :
    Except String (String → DocumentNode → ResolveResult) :=
  (buildFragmentRegistry co po schemaObject).map
    (fun fragmentRegistry => resolveFragments co po fragmentRegistry)

/-! ### Spec-side definitions (for refinement statements)

These two follow the specification's words for step 3 of the registry
build algorithm, to be compared with `getAllFragmentSubTypes` above. -/

/-- Spec words: the type-specialized names; one unqualified name when
there is exactly one possible type, one per-type qualified name per
possible type when there are several, nothing when there are none. -/
def typeSpecializedNamesSpec (v : BaseVisitor) (possibleTypes : List String)
    (name : String) : List String :=
  if possibleTypes.length = 1 then
    [v.convertName name true (v.getFragmentSuffix name)]
  else if possibleTypes.length = 0 then
    []
  else
    possibleTypes.map (fun typeName =>
      v.convertName name true ("_" ++ typeName ++ "_" ++ v.getFragmentSuffix name))

/-- Spec words: the document-variable symbol, present exactly when a
doc-var plugin is configured and the document mode is none of the
node-based / external modes. -/
def docVarNamesSpec (po : PresetFnArgs) (name : String) : List String :=
  if isUsingDocVarPlugin po.plugins = true ∧
      po.documentMode.getD DocumentMode.graphQLTag ≠ DocumentMode.documentNode ∧
      po.documentMode.getD DocumentMode.graphQLTag ≠ DocumentMode.external ∧
      po.documentMode.getD DocumentMode.graphQLTag ≠ DocumentMode.documentNodeImportFragments then
    [po.baseVisitor.getFragmentVariableName name]
  else
    []

/-! ### Flattened fragment scan order -/

/-- All fragment definitions of the document set, paired with their
document's location, in document order then definition order. -/
def flatFragments (documents : List DocumentRecord) :
    List (String × FragmentDefinitionNode) :=
  documents.flatMap (fun d =>
    (docFragments d.document).map (fun f => (d.location, f)))

/-! ### Concrete instances

A small schema with the concrete object type `User`, concrete
collaborator functions, and the documents of the specification's
scenarios. -/

def userType : GraphQLNamedType := { possibleTypeNames := ["User"] }

def schemaUser : GraphQLSchema :=
  { getType := fun n => if n = "User" then some userType else none }

/-- Concrete naming authority: `convertName` appends the suffix, the
fragment suffix is `FragmentDoc` and the fragment variable name appends
`FragmentDoc`. -/
def visitorFix : BaseVisitor :=
  { getFragmentVariableName := fun n => n ++ "FragmentDoc"
  , getFragmentSuffix := fun _ => "FragmentDoc"
  , convertName := fun n _tp suffix => n ++ suffix }

/-- Concrete file-path derivation: `X.graphql ↦ X.generated`. -/
def generateFilePathFix (location : String) : String :=
  location.dropRight 8 ++ ".generated"

/-- Concrete import-statement rendering. -/
def generateImportStatementFix (args : ImportStatementArgs) : String :=
  "import \x7b " ++ String.intercalate ", " args.importSource.names ++
    " \x7d from './" ++ args.importSource.path ++ "'"

def coFix : DocumentImportResolverOptions :=
  { generateFilePath := generateFilePathFix
  , generateImportStatement := generateImportStatementFix }

def fragF : FragmentDefinitionNode :=
  { name := "F", typeCondition := "User", selections := [.field "id" []] }

def docA : DocumentRecord :=
  { location := "A.graphql", document := { definitions := [.fragmentDefinition fragF] } }

def docBNode : DocumentNode :=
  { definitions := [.operationDefinition [.field "user" [.fragmentSpread "F"]]] }

def docB : DocumentRecord := { location := "B.graphql", document := docBNode }

def presetArgsFor (documents : List DocumentRecord) : PresetFnArgs :=
  { documents := documents
  , plugins := ["typescript", "typescript-operations"]
  , baseOutputDir := "./"
  , documentMode := none
  , baseVisitor := visitorFix }

/-- Pure variant of one scan step, for fragments whose type condition
resolves; `processFragment` returns `.ok` of exactly this state. -/
def pureBuildStep (co : DocumentImportResolverOptions) (po : PresetFnArgs)
    (schemaObject : GraphQLSchema) (st : BuildState)
    (p : String × FragmentDefinitionNode) : BuildState :=
  { registry := assocInsert st.registry p.2.name (entryFor co po schemaObject p.1 p.2)
  , duplicateFragmentNames :=
      match assocLookup st.registry p.2.name with
      | some prev =>
        if printFragment p.2 ≠ printFragment prev.node then
          st.duplicateFragmentNames ++ [p.2.name]
        else st.duplicateFragmentNames
      | none => st.duplicateFragmentNames }

/-- The initial scan state. -/
def initialBuildState : BuildState :=
  { registry := [], duplicateFragmentNames := [] }

/-- Registry produced by scanning a list of located fragments, ignoring
duplicate bookkeeping. -/
def registryFold (co : DocumentImportResolverOptions) (po : PresetFnArgs)
    (schemaObject : GraphQLSchema) (r : FragmentRegistry)
    (l : List (String × FragmentDefinitionNode)) : FragmentRegistry :=
  l.foldl (fun r p => assocInsert r p.2.name (entryFor co po schemaObject p.1 p.2)) r

/-- The import-group component of one planner iteration. -/
def groupStep (fragmentRegistry : FragmentRegistry) (g : ImportGroups)
    (p : String × Nat) : ImportGroups :=
  match assocLookup fragmentRegistry p.1 with
  | none => g
  | some d => if p.2 = 0 then addImports g d.filePath d.importNames else g

/-- Duplicate fragment names recorded by the whole scan, in the order
they were discovered. -/
def scanDuplicateNames (co : DocumentImportResolverOptions) (po : PresetFnArgs)
    (schemaObject : GraphQLSchema) : List String :=
  ((flatFragments po.documents).foldl (pureBuildStep co po schemaObject)
    initialBuildState).duplicateFragmentNames

/-- Name `n` has two scan-order definitions with different serialized
forms. -/
def conflictingName (l : List (String × FragmentDefinitionNode)) (n : String) : Prop :=
  ∃ a ∈ l, ∃ b ∈ l, a.2.name = n ∧ b.2.name = n ∧
    printFragment a.2 ≠ printFragment b.2

/-! ### Further concrete instances used as witnesses -/

/-- Registry entry the builder computes for `F` from `A.graphql`. -/
def entryFA : FragmentRegistryEntry :=
  { filePath := "A.generated", importNames := ["FFragmentDoc"]
  , onType := "User", node := fragF }

def regC2 : FragmentRegistry := [("F", entryFA)]

/-- A second document defining the identical fragment `F`. -/
def docC : DocumentRecord :=
  { location := "C.graphql", document := { definitions := [.fragmentDefinition fragF] } }

/-- The fragment `F` with a different body (`id name` instead of `id`). -/
def fragF2 : FragmentDefinitionNode :=
  { name := "F", typeCondition := "User"
  , selections := [.field "id" [], .field "name" []] }

/-- A document defining the conflicting fragment `F`. -/
def docD : DocumentRecord :=
  { location := "D.graphql", document := { definitions := [.fragmentDefinition fragF2] } }

/-- A fragment on a type absent from the schema. -/
def fragG : FragmentDefinitionNode :=
  { name := "G", typeCondition := "Ghost", selections := [] }

def docBad : DocumentRecord :=
  { location := "E.graphql", document := { definitions := [.fragmentDefinition fragG] } }

/-- A registry entry with an empty import-name list. -/
def entryEmptyW : FragmentRegistryEntry :=
  { filePath := "A.generated", importNames := [], onType := "User", node := fragF }

def regEmptyW : FragmentRegistry := [("F", entryEmptyW)]

/-! ### Lemmas: association lists -/

theorem assocLookup_append {α : Type} (m1 m2 : List (String × α)) (key : String) :
    assocLookup (m1 ++ m2) key =
      match assocLookup m1 key with
      | some v => some v
      | none => assocLookup m2 key := by
  induction m1 with
  | nil => simp [assocLookup]
  | cons p rest ih =>
      simp only [List.cons_append, assocLookup]
      split <;> simp [ih]

theorem assocLookup_assocUpdate {α : Type} (m : List (String × α)) (k key : String) (v : α) :
    assocLookup (assocUpdate m k v) key =
      if k = key then (assocLookup m k).map (fun _ => v) else assocLookup m key := by
  induction m with
  | nil =>
      by_cases hk : k = key <;> simp [assocUpdate, assocLookup, hk]
  | cons p rest ih =>
      obtain ⟨pk, pv⟩ := p
      rw [assocUpdate]
      by_cases hpk : pk = k
      · by_cases hk : k = key
        · simp [assocLookup, hpk, hk]
        · simp [assocLookup, hpk, hk]
      · by_cases hp : pk = key
        · have hk : ¬ k = key := fun h => hpk (hp.trans h.symm)
          have hk2 : ¬ key = k := fun h => hk h.symm
          simp [assocLookup, hpk, hp, hk, hk2]
        · simp [assocLookup, hpk, hp, ih]

theorem assocLookup_assocInsert {α : Type} (m : List (String × α)) (k key : String) (v : α) :
    assocLookup (assocInsert m k v) key =
      if k = key then some v else assocLookup m key := by
  unfold assocInsert
  by_cases h : (assocLookup m k).isSome
  · rw [if_pos h, assocLookup_assocUpdate]
    by_cases hk : k = key
    · subst hk
      obtain ⟨w, hw⟩ := Option.isSome_iff_exists.mp h
      simp [hw]
    · simp [hk]
  · rw [if_neg h, assocLookup_append]
    rw [Option.not_isSome_iff_eq_none] at h
    by_cases hk : k = key
    · subst hk
      rw [h]
      simp [assocLookup]
    · cases hlk : assocLookup m key with
      | none => simp [hlk, assocLookup, hk]
      | some w => simp [hlk, hk]

theorem assocLookup_mem {α : Type} {m : List (String × α)} {key : String} {v : α}
    (h : assocLookup m key = some v) : (key, v) ∈ m := by
  induction m with
  | nil => simp [assocLookup] at h
  | cons p rest ih =>
      obtain ⟨pk, pv⟩ := p
      rw [assocLookup] at h
      by_cases hpk : pk = key
      · rw [if_pos hpk] at h
        cases h
        subst hpk
        exact List.mem_cons_self _ _
      · rw [if_neg hpk] at h
        exact List.mem_cons_of_mem _ (ih h)

/-! ### Lemmas: the registry build as a pure fold -/

theorem processFragment_ok (co : DocumentImportResolverOptions) (po : PresetFnArgs)
    (schemaObject : GraphQLSchema) (st : BuildState) (location : String)
    (f : FragmentDefinitionNode) (h : (schemaObject.getType f.typeCondition).isSome) :
    processFragment co po schemaObject st location f =
      .ok (pureBuildStep co po schemaObject st (location, f)) := by
  unfold processFragment pureBuildStep
  obtain ⟨t, ht⟩ := Option.isSome_iff_exists.mp h
  rw [ht]

theorem processDocument_eq_foldlM (co : DocumentImportResolverOptions) (po : PresetFnArgs)
    (schemaObject : GraphQLSchema) (st : BuildState) (d : DocumentRecord) :
    processDocument co po schemaObject st d =
      ((docFragments d.document).map (fun f => (d.location, f))).foldlM
        (fun s p => processFragment co po schemaObject s p.1 p.2) st := by
  rw [processDocument, List.foldlM_map]

theorem foldlM_documents_flat (co : DocumentImportResolverOptions) (po : PresetFnArgs)
    (schemaObject : GraphQLSchema) (documents : List DocumentRecord) :
    ∀ st : BuildState,
      documents.foldlM (processDocument co po schemaObject) st =
        (flatFragments documents).foldlM
          (fun s p => processFragment co po schemaObject s p.1 p.2) st := by
  induction documents with
  | nil => intro st; rfl
  | cons d rest ih =>
      intro st
      rw [List.foldlM_cons, flatFragments, List.flatMap_cons, List.foldlM_append,
        processDocument_eq_foldlM]
      have hrest : flatFragments rest = rest.flatMap (fun d =>
          (docFragments d.document).map (fun f => (d.location, f))) := rfl
      rw [← hrest]
      cases hres : ((docFragments d.document).map (fun f => (d.location, f))).foldlM
          (fun s p => processFragment co po schemaObject s p.1 p.2) st with
      | error e => rfl
      | ok st2 => simpa using ih st2

theorem foldlM_fragments_ok (co : DocumentImportResolverOptions) (po : PresetFnArgs)
    (schemaObject : GraphQLSchema) (l : List (String × FragmentDefinitionNode))
    (hres : ∀ p ∈ l, (schemaObject.getType p.2.typeCondition).isSome) :
    ∀ st : BuildState,
      l.foldlM (fun s p => processFragment co po schemaObject s p.1 p.2) st =
        .ok (l.foldl (pureBuildStep co po schemaObject) st) := by
  induction l with
  | nil => intro st; rfl
  | cons p rest ih =>
      intro st
      obtain ⟨location, f⟩ := p
      rw [List.foldlM_cons, List.foldl_cons]
      rw [processFragment_ok co po schemaObject st location f
        (hres (location, f) (List.mem_cons_self _ rest))]
      exact ih (fun q hq => hres q (List.mem_cons_of_mem _ hq))
        (pureBuildStep co po schemaObject st (location, f))

/-- When every fragment before `(location, f)` resolves and `f` does
not, the scan aborts at `f` with its error, whatever comes after. -/
theorem foldlM_fragments_error (co : DocumentImportResolverOptions) (po : PresetFnArgs)
    (schemaObject : GraphQLSchema) (pre : List (String × FragmentDefinitionNode))
    (location : String) (f : FragmentDefinitionNode)
    (post : List (String × FragmentDefinitionNode))
    (hpre : ∀ p ∈ pre, (schemaObject.getType p.2.typeCondition).isSome)
    (hf : schemaObject.getType f.typeCondition = none) :
    ∀ st : BuildState,
      (pre ++ (location, f) :: post).foldlM
        (fun s p => processFragment co po schemaObject s p.1 p.2) st =
        .error (unknownTypeMessage f.name f.typeCondition) := by
  induction pre with
  | nil =>
      intro st
      rw [List.nil_append, List.foldlM_cons]
      have herr : processFragment co po schemaObject st location f =
          .error (unknownTypeMessage f.name f.typeCondition) := by
        unfold processFragment
        rw [hf]
      rw [herr]
      rfl
  | cons p rest ih =>
      intro st
      obtain ⟨loc2, f2⟩ := p
      rw [List.cons_append, List.foldlM_cons,
        processFragment_ok co po schemaObject st loc2 f2
          (hpre (loc2, f2) (List.mem_cons_self _ _))]
      exact ih (fun q hq => hpre q (List.mem_cons_of_mem _ hq))
        (pureBuildStep co po schemaObject st (loc2, f2))

theorem buildFragmentRegistry_eq_pure (co : DocumentImportResolverOptions)
    (po : PresetFnArgs) (schemaObject : GraphQLSchema)
    (hres : ∀ p ∈ flatFragments po.documents,
      (schemaObject.getType p.2.typeCondition).isSome) :
    buildFragmentRegistry co po schemaObject =
      (if ((flatFragments po.documents).foldl (pureBuildStep co po schemaObject)
            initialBuildState).duplicateFragmentNames ≠ [] then
        .error (duplicateMessage
          ((flatFragments po.documents).foldl (pureBuildStep co po schemaObject)
            initialBuildState).duplicateFragmentNames)
      else
        .ok ((flatFragments po.documents).foldl (pureBuildStep co po schemaObject)
          initialBuildState).registry) := by
  unfold buildFragmentRegistry
  rw [foldlM_documents_flat, foldlM_fragments_ok co po schemaObject _ hres]
  rfl

/-- The registry component of the pure scan ignores duplicate
bookkeeping. -/
theorem registry_foldl (co : DocumentImportResolverOptions) (po : PresetFnArgs)
    (schemaObject : GraphQLSchema) (l : List (String × FragmentDefinitionNode)) :
    ∀ st : BuildState,
      (l.foldl (pureBuildStep co po schemaObject) st).registry =
        registryFold co po schemaObject st.registry l := by
  induction l with
  | nil => intro st; rfl
  | cons p rest ih =>
      intro st
      rw [List.foldl_cons, ih]
      rfl

/-- Looking a key up after a fold of insertions finds the value of the
last inserted element with that key, and falls back to the initial map
when no element has it. -/
theorem assocLookup_foldl_insert {α β : Type} (key : β → String) (val : β → α) :
    ∀ (l : List β) (r : List (String × α)) (k : String),
      assocLookup (l.foldl (fun m p => assocInsert m (key p) (val p)) r) k =
        match (l.filter (fun p => key p == k)).getLast? with
        | some p => some (val p)
        | none => assocLookup r k := by
  intro l
  induction l with
  | nil => intro r k; rfl
  | cons p rest ih =>
      intro r k
      rw [List.foldl_cons, ih, List.filter_cons]
      by_cases hpk : key p = k
      · rw [if_pos (by simpa using hpk)]
        cases hlast : (rest.filter (fun q => key q == k)).getLast? with
        | none =>
            have hnil := List.getLast?_eq_none_iff.mp hlast
            rw [hnil]
            simp [assocLookup_assocInsert, hpk]
        | some q =>
            obtain ⟨ys, hys⟩ := List.getLast?_eq_some_iff.mp hlast
            rw [hys]
            have hq : (p :: (ys ++ [q])).getLast? = some q := by
              rw [show p :: (ys ++ [q]) = (p :: ys) ++ [q] by simp]
              exact List.getLast?_concat _
            rw [hq]
      · rw [if_neg (by simpa using hpk)]
        cases hlast : (rest.filter (fun q => key q == k)).getLast? with
        | none => simp [assocLookup_assocInsert, hpk]
        | some q => rfl

/-- What the scanned registry holds at a key: the entry computed from
the last fragment definition with that name, when any. -/
theorem registry_lookup_last (co : DocumentImportResolverOptions) (po : PresetFnArgs)
    (schemaObject : GraphQLSchema) (l : List (String × FragmentDefinitionNode))
    (k : String) :
    assocLookup
      (l.foldl (pureBuildStep co po schemaObject) initialBuildState).registry k =
      match (l.filter (fun q => q.2.name == k)).getLast? with
      | some u => some (entryFor co po schemaObject u.1 u.2)
      | none => none := by
  rw [registry_foldl]
  have hfold : registryFold co po schemaObject initialBuildState.registry l =
      l.foldl (fun m q => assocInsert m q.2.name (entryFor co po schemaObject q.1 q.2)) [] :=
    rfl
  rw [hfold,
    assocLookup_foldl_insert (fun q => q.2.name)
      (fun q => entryFor co po schemaObject q.1 q.2) l [] k]
  cases (List.filter (fun p => p.2.name == k) l).getLast? <;> rfl

/-- Folding the pure step over a scan order that ends in `p` is the pure
step applied to the state of the prefix. -/
theorem foldl_append_singleton_state (co : DocumentImportResolverOptions)
    (po : PresetFnArgs) (schemaObject : GraphQLSchema)
    (l : List (String × FragmentDefinitionNode)) (p : String × FragmentDefinitionNode) :
    List.foldl (pureBuildStep co po schemaObject) initialBuildState (l ++ [p]) =
      pureBuildStep co po schemaObject
        (List.foldl (pureBuildStep co po schemaObject) initialBuildState l) p := by
  rw [List.foldl_append]
  rfl

/-! ### Lemmas: the duplicate-name bookkeeping -/

theorem pureBuildStep_dups_none (co : DocumentImportResolverOptions) (po : PresetFnArgs)
    (schemaObject : GraphQLSchema) (st : BuildState) (p : String × FragmentDefinitionNode)
    (h : assocLookup st.registry p.2.name = none) :
    (pureBuildStep co po schemaObject st p).duplicateFragmentNames =
      st.duplicateFragmentNames := by
  simp only [pureBuildStep, h]

theorem pureBuildStep_dups_some_eq (co : DocumentImportResolverOptions) (po : PresetFnArgs)
    (schemaObject : GraphQLSchema) (st : BuildState) (p : String × FragmentDefinitionNode)
    (prev : FragmentRegistryEntry)
    (h : assocLookup st.registry p.2.name = some prev)
    (heq : printFragment p.2 = printFragment prev.node) :
    (pureBuildStep co po schemaObject st p).duplicateFragmentNames =
      st.duplicateFragmentNames := by
  simp only [pureBuildStep, h]
  rw [if_neg (not_not_intro heq)]

theorem pureBuildStep_dups_some_ne (co : DocumentImportResolverOptions) (po : PresetFnArgs)
    (schemaObject : GraphQLSchema) (st : BuildState) (p : String × FragmentDefinitionNode)
    (prev : FragmentRegistryEntry)
    (h : assocLookup st.registry p.2.name = some prev)
    (hne : printFragment p.2 ≠ printFragment prev.node) :
    (pureBuildStep co po schemaObject st p).duplicateFragmentNames =
      st.duplicateFragmentNames ++ [p.2.name] := by
  simp only [pureBuildStep, h]
  rw [if_pos hne]

/-- The duplicate list only ever grows along the scan. -/
theorem dups_mono_append_singleton (co : DocumentImportResolverOptions)
    (po : PresetFnArgs) (schemaObject : GraphQLSchema)
    (l : List (String × FragmentDefinitionNode)) (p : String × FragmentDefinitionNode)
    (n : String)
    (hn : n ∈ (List.foldl (pureBuildStep co po schemaObject) initialBuildState
      l).duplicateFragmentNames) :
    n ∈ (List.foldl (pureBuildStep co po schemaObject) initialBuildState
      (l ++ [p])).duplicateFragmentNames := by
  rw [foldl_append_singleton_state]
  cases hlook : assocLookup
      (List.foldl (pureBuildStep co po schemaObject) initialBuildState l).registry
      p.2.name with
  | none =>
      rw [pureBuildStep_dups_none co po schemaObject _ p hlook]
      exact hn
  | some prev =>
      by_cases hne : printFragment p.2 ≠ printFragment prev.node
      · rw [pureBuildStep_dups_some_ne co po schemaObject _ p prev hlook hne]
        exact List.mem_append_left _ hn
      · rw [pureBuildStep_dups_some_eq co po schemaObject _ p prev hlook (not_not.mp hne)]
        exact hn

/-- When every two same-name fragment definitions of the scan order have
equal serialized forms, the scan records no duplicate name. -/
theorem dups_empty_of_agree (co : DocumentImportResolverOptions) (po : PresetFnArgs)
    (schemaObject : GraphQLSchema) :
    ∀ l : List (String × FragmentDefinitionNode),
      (∀ p ∈ l, ∀ q ∈ l, p.2.name = q.2.name → printFragment p.2 = printFragment q.2) →
      (List.foldl (pureBuildStep co po schemaObject) initialBuildState
        l).duplicateFragmentNames = [] := by
  intro l
  induction l using List.reverseRecOn with
  | nil => intro _; rfl
  | append_singleton l p ih =>
      intro hsame
      have hdl := ih (fun a ha b hb hn =>
        hsame a (List.mem_append_left _ ha) b (List.mem_append_left _ hb) hn)
      rw [foldl_append_singleton_state]
      cases hlook : assocLookup
          (List.foldl (pureBuildStep co po schemaObject) initialBuildState l).registry
          p.2.name with
      | none =>
          rw [pureBuildStep_dups_none co po schemaObject _ p hlook]
          exact hdl
      | some prev =>
          have hll := registry_lookup_last co po schemaObject l p.2.name
          rw [hlook] at hll
          cases hlast : (List.filter (fun q => q.2.name == p.2.name) l).getLast? with
          | none => rw [hlast] at hll; simp at hll
          | some u =>
              rw [hlast] at hll
              simp only [Option.some.injEq] at hll
              have humem := List.mem_of_getLast?_eq_some hlast
              have hul : u ∈ l := List.mem_of_mem_filter humem
              have hun : u.2.name = p.2.name := by
                simpa using List.of_mem_filter humem
              have hprint : printFragment p.2 = printFragment prev.node := by
                rw [hll]
                exact (hsame u (List.mem_append_left _ hul) p
                  (List.mem_append_right _ (List.mem_singleton_self p)) hun).symm
              rw [pureBuildStep_dups_some_eq co po schemaObject _ p prev hlook hprint]
              exact hdl

/-- A name two of whose definitions in the scan order have different
serialized forms ends up in the duplicate list: the scan is never cut
short by a conflict. -/
theorem mem_dups_of_conflict (co : DocumentImportResolverOptions) (po : PresetFnArgs)
    (schemaObject : GraphQLSchema) :
    ∀ (l : List (String × FragmentDefinitionNode)) (n : String),
      (∃ a ∈ l, ∃ b ∈ l, a.2.name = n ∧ b.2.name = n ∧
        printFragment a.2 ≠ printFragment b.2) →
      n ∈ (List.foldl (pureBuildStep co po schemaObject) initialBuildState
        l).duplicateFragmentNames := by
  intro l
  induction l using List.reverseRecOn with
  | nil =>
      intro n h
      obtain ⟨a, ha, _⟩ := h
      simp at ha
  | append_singleton l p ih =>
      intro n h
      obtain ⟨a, ha, b, hb, han, hbn, hab⟩ := h
      rw [List.mem_append, List.mem_singleton] at ha hb
      have aux : ∀ c ∈ l, c.2.name = p.2.name →
          printFragment p.2 ≠ printFragment c.2 → p.2.name = n →
          n ∈ (List.foldl (pureBuildStep co po schemaObject) initialBuildState
            (l ++ [p])).duplicateFragmentNames := by
        intro c hcl hcn hnec hpn
        rw [foldl_append_singleton_state]
        have hcf : c ∈ List.filter (fun q => q.2.name == p.2.name) l :=
          List.mem_filter.mpr ⟨hcl, by simp [hcn]⟩
        cases hlast : (List.filter (fun q => q.2.name == p.2.name) l).getLast? with
        | none =>
            rw [List.getLast?_eq_none_iff] at hlast
            rw [hlast] at hcf
            exact absurd hcf (List.not_mem_nil c)
        | some u =>
            have hul : u ∈ l := List.mem_of_mem_filter (List.mem_of_getLast?_eq_some hlast)
            have hun : u.2.name = p.2.name := by
              simpa using List.of_mem_filter (List.mem_of_getLast?_eq_some hlast)
            have hlook : assocLookup
                (List.foldl (pureBuildStep co po schemaObject) initialBuildState l).registry
                p.2.name = some (entryFor co po schemaObject u.1 u.2) := by
              rw [registry_lookup_last, hlast]
            by_cases hne : printFragment p.2 ≠ printFragment u.2
            · rw [pureBuildStep_dups_some_ne co po schemaObject _ p _ hlook hne]
              apply List.mem_append_right
              simp [hpn]
            · push_neg at hne
              have hconf : n ∈ (List.foldl (pureBuildStep co po schemaObject)
                  initialBuildState l).duplicateFragmentNames :=
                ih n ⟨u, hul, c, hcl, hun.trans hpn, hcn.trans hpn,
                  fun hcontra => hnec (hne.trans hcontra)⟩
              rw [pureBuildStep_dups_some_eq co po schemaObject _ p _ hlook hne]
              exact hconf
      cases ha with
      | inl hal =>
          cases hb with
          | inl hbl =>
              exact dups_mono_append_singleton co po schemaObject l p n
                (ih n ⟨a, hal, b, hbl, han, hbn, hab⟩)
          | inr hbp =>
              subst hbp
              exact aux a hal (han.trans hbn.symm) (Ne.symm hab) hbn
      | inr hap =>
          subst hap
          cases hb with
          | inl hbl => exact aux b hbl (hbn.trans han.symm) hab han
          | inr hbp =>
              subst hbp
              exact absurd rfl hab

/-! ### Lemmas: the planner -/

theorem planStep_none (r : FragmentRegistry) (st : List ExternalFragment × ImportGroups)
    (p : String × Nat) (h : assocLookup r p.1 = none) : planStep r st p = st := by
  simp [planStep, h]

theorem planStep_some (r : FragmentRegistry) (st : List ExternalFragment × ImportGroups)
    (p : String × Nat) (d : FragmentRegistryEntry) (h : assocLookup r p.1 = some d) :
    planStep r st p =
      (st.1 ++ [{ level := p.2, isExternal := true, name := p.1
                , onType := d.onType, node := d.node }]
      , if p.2 = 0 then addImports st.2 d.filePath d.importNames else st.2) := by
  simp [planStep, h]

/-- The `externalFragments` component of the planner fold: one element
per registered pair of the depth map, in depth-map order. -/
theorem planFold_fst (r : FragmentRegistry) :
    ∀ (m : List (String × Nat)) (st : List ExternalFragment × ImportGroups),
      (m.foldl (planStep r) st).1 = st.1 ++ m.filterMap (fun p =>
        (assocLookup r p.1).map (fun e =>
          { level := p.2, isExternal := true, name := p.1
          , onType := e.onType, node := e.node })) := by
  intro m
  induction m with
  | nil => intro st; simp
  | cons p rest ih =>
      intro st
      cases hlook : assocLookup r p.1 with
      | none =>
          rw [List.foldl_cons, planStep_none r st p hlook, ih]
          simp [List.filterMap_cons, hlook]
      | some d =>
          rw [List.foldl_cons, planStep_some r st p d hlook, ih]
          simp [List.filterMap_cons, hlook]

/-- The import-group component of the planner fold only depends on the
group fold. -/
theorem planFold_snd (r : FragmentRegistry) :
    ∀ (m : List (String × Nat)) (st : List ExternalFragment × ImportGroups),
      (m.foldl (planStep r) st).2 = m.foldl (groupStep r) st.2 := by
  intro m
  induction m with
  | nil => intro st; rfl
  | cons p rest ih =>
      intro st
      cases hlook : assocLookup r p.1 with
      | none =>
          rw [List.foldl_cons, planStep_none r st p hlook, List.foldl_cons, ih]
          simp [groupStep, hlook]
      | some d =>
          rw [List.foldl_cons, planStep_some r st p d hlook, List.foldl_cons, ih]
          simp [groupStep, hlook]

theorem groupStep_of_level_ne_zero (r : FragmentRegistry) (g : ImportGroups)
    (p : String × Nat) (h : ¬ p.2 = 0) : groupStep r g p = g := by
  cases hlook : assocLookup r p.1 with
  | none => simp [groupStep, hlook]
  | some d => simp [groupStep, hlook, h]

/-- Pairs of nonzero depth contribute nothing to the import groups. -/
theorem groupFold_filter_level_zero (r : FragmentRegistry) :
    ∀ (m : List (String × Nat)) (g : ImportGroups),
      m.foldl (groupStep r) g =
        (m.filter (fun p => p.2 == 0)).foldl (groupStep r) g := by
  intro m
  induction m with
  | nil => intro g; rfl
  | cons p rest ih =>
      intro g
      rw [List.foldl_cons, List.filter_cons]
      by_cases hl : p.2 = 0
      · rw [if_pos (by simpa using hl), List.foldl_cons, ih]
      · rw [if_neg (by simpa using hl), groupStep_of_level_ne_zero r g p hl, ih]

/-! ### Lemmas: set semantics of the import groups -/

theorem addToSet_nodup (s : List String) (x : String) (h : s.Nodup) :
    (addToSet s x).Nodup := by
  unfold addToSet
  by_cases hx : x ∈ s
  · rw [if_pos hx]; exact h
  · rw [if_neg hx]
    rw [List.nodup_append]
    refine ⟨h, List.nodup_singleton x, ?_⟩
    intro a ha hax
    rw [List.mem_singleton] at hax
    subst hax
    exact hx ha

theorem foldl_addToSet_nodup (xs : List String) :
    ∀ s : List String, s.Nodup → (xs.foldl addToSet s).Nodup := by
  induction xs with
  | nil => intro s h; exact h
  | cons x rest ih =>
      intro s h
      rw [List.foldl_cons]
      exact ih (addToSet s x) (addToSet_nodup s x h)

theorem setOfList_nodup (xs : List String) : (setOfList xs).Nodup :=
  foldl_addToSet_nodup xs [] List.nodup_nil

theorem mem_assocUpdate {α : Type} {m : List (String × α)} {k : String} {v : α} :
    ∀ q ∈ assocUpdate m k v, q ∈ m ∨ q = (k, v) := by
  induction m with
  | nil => intro q hq; simp [assocUpdate] at hq
  | cons p rest ih =>
      obtain ⟨pk, pv⟩ := p
      intro q hq
      rw [assocUpdate] at hq
      by_cases hpk : pk = k
      · rw [if_pos hpk] at hq
        rcases List.mem_cons.mp hq with hq | hq
        · right; exact hq
        · left; exact List.mem_cons_of_mem _ hq
      · rw [if_neg hpk] at hq
        rcases List.mem_cons.mp hq with hq | hq
        · left; exact hq ▸ List.mem_cons_self _ _
        · rcases ih q hq with h | h
          · left; exact List.mem_cons_of_mem _ h
          · right; exact h

theorem mem_assocInsert {α : Type} {m : List (String × α)} {k : String} {v : α} :
    ∀ q ∈ assocInsert m k v, q ∈ m ∨ q = (k, v) := by
  intro q hq
  unfold assocInsert at hq
  by_cases h : (assocLookup m k).isSome
  · rw [if_pos h] at hq
    exact mem_assocUpdate q hq
  · rw [if_neg h] at hq
    rcases List.mem_append.mp hq with hq | hq
    · left; exact hq
    · right; exact List.mem_singleton.mp hq

/-- Adding one fragment's import names preserves duplicate-freeness of
every group. -/
theorem addImports_nodup (g : ImportGroups) (fp : String) (ns : List String)
    (h : ∀ q ∈ g, q.2.Nodup) : ∀ q ∈ addImports g fp ns, q.2.Nodup := by
  intro q hq
  unfold addImports at hq
  cases hlook : assocLookup g fp with
  | none =>
      rw [hlook] at hq
      rcases List.mem_append.mp hq with hq | hq
      · exact h q hq
      · rw [List.mem_singleton] at hq
        subst hq
        exact setOfList_nodup ns
  | some s =>
      rw [hlook] at hq
      have hs : s.Nodup := h (fp, s) (assocLookup_mem hlook)
      rcases mem_assocInsert q hq with hqg | hqv
      · exact h q hqg
      · subst hqv
        exact foldl_addToSet_nodup ns s hs

theorem groupStep_nodup (r : FragmentRegistry) (g : ImportGroups) (p : String × Nat)
    (h : ∀ q ∈ g, q.2.Nodup) : ∀ q ∈ groupStep r g p, q.2.Nodup := by
  cases hlook : assocLookup r p.1 with
  | none => simpa [groupStep, hlook] using h
  | some d =>
      by_cases hl : p.2 = 0
      · simp only [groupStep, hlook, if_pos hl]
        exact addImports_nodup g d.filePath d.importNames h
      · simpa [groupStep, hlook, hl] using h

theorem groupFold_nodup (r : FragmentRegistry) :
    ∀ (m : List (String × Nat)) (g : ImportGroups),
      (∀ q ∈ g, q.2.Nodup) → ∀ q ∈ m.foldl (groupStep r) g, q.2.Nodup := by
  intro m
  induction m with
  | nil => intro g h; exact h
  | cons p rest ih =>
      intro g h
      rw [List.foldl_cons]
      exact ih (groupStep r g p) (groupStep_nodup r g p h)

/-! ### Lemmas: names absent from the registry -/

/-- A depth-map pair whose name is unregistered is skipped entirely:
dropping all such pairs does not change the planner fold. -/
theorem planFold_skip_unregistered (r : FragmentRegistry) (n : String)
    (h : assocLookup r n = none) :
    ∀ (m : List (String × Nat)) (st : List ExternalFragment × ImportGroups),
      m.foldl (planStep r) st =
        (m.filter (fun p => !(p.1 == n))).foldl (planStep r) st := by
  intro m
  induction m with
  | nil => intro st; rfl
  | cons p rest ih =>
      intro st
      rw [List.foldl_cons, List.filter_cons]
      by_cases hp : p.1 = n
      · rw [if_neg (by simpa using hp), planStep_none r st p (by rw [hp]; exact h)]
        exact ih st
      · rw [if_pos (by simpa using hp), List.foldl_cons]
        exact ih (planStep r st p)

/-! ### Lemmas: group keys and empty import-name lists -/

theorem assocUpdate_keys {α : Type} (m : List (String × α)) (k : String) (v : α) :
    (assocUpdate m k v).map Prod.fst = m.map Prod.fst := by
  induction m with
  | nil => rfl
  | cons p rest ih =>
      obtain ⟨pk, pv⟩ := p
      rw [assocUpdate]
      by_cases hpk : pk = k
      · rw [if_pos hpk]
        simp [hpk]
      · rw [if_neg hpk]
        simp [ih]

theorem addImports_keys_mono (g : ImportGroups) (fp : String) (ns : List String)
    (fp' : String) (h : fp' ∈ g.map Prod.fst) :
    fp' ∈ (addImports g fp ns).map Prod.fst := by
  cases hlook : assocLookup g fp with
  | none =>
      simp only [addImports, hlook]
      rw [List.map_append]
      exact List.mem_append_left _ h
  | some s =>
      simp only [addImports, hlook]
      unfold assocInsert
      rw [if_pos (by rw [hlook]; rfl), assocUpdate_keys]
      exact h

theorem self_mem_addImports_keys (g : ImportGroups) (fp : String) (ns : List String) :
    fp ∈ (addImports g fp ns).map Prod.fst := by
  cases hlook : assocLookup g fp with
  | none =>
      simp only [addImports, hlook]
      rw [List.map_append]
      exact List.mem_append_right _ (by simp)
  | some s =>
      simp only [addImports, hlook]
      unfold assocInsert
      rw [if_pos (by rw [hlook]; rfl), assocUpdate_keys]
      exact List.mem_map_of_mem Prod.fst (assocLookup_mem hlook)

theorem groupStep_keys_mono (r : FragmentRegistry) (g : ImportGroups) (p : String × Nat)
    (fp' : String) (h : fp' ∈ g.map Prod.fst) :
    fp' ∈ (groupStep r g p).map Prod.fst := by
  cases hlook : assocLookup r p.1 with
  | none => simpa [groupStep, hlook] using h
  | some d =>
      by_cases hl : p.2 = 0
      · simp only [groupStep, hlook, if_pos hl]
        exact addImports_keys_mono g d.filePath d.importNames fp' h
      · simpa [groupStep, hlook, hl] using h

theorem groupFold_keys_mono (r : FragmentRegistry) :
    ∀ (m : List (String × Nat)) (g : ImportGroups) (fp' : String),
      fp' ∈ g.map Prod.fst → fp' ∈ (m.foldl (groupStep r) g).map Prod.fst := by
  intro m
  induction m with
  | nil => intro g fp' h; exact h
  | cons p rest ih =>
      intro g fp' h
      rw [List.foldl_cons]
      exact ih (groupStep r g p) fp' (groupStep_keys_mono r g p fp' h)

/-- A registered depth-0 pair makes its entry's file path a key of the
final import groups, whatever its import names. -/
theorem filePath_mem_groupFold_keys (r : FragmentRegistry) :
    ∀ (m : List (String × Nat)) (g : ImportGroups) (n : String) (e : FragmentRegistryEntry),
      (n, 0) ∈ m → assocLookup r n = some e →
      e.filePath ∈ (m.foldl (groupStep r) g).map Prod.fst := by
  intro m
  induction m with
  | nil => intro g n e hmem; simp at hmem
  | cons p rest ih =>
      intro g n e hmem hlook
      rw [List.foldl_cons]
      rcases List.mem_cons.mp hmem with hp | hp
      · have hstep : groupStep r g p = addImports g e.filePath e.importNames := by
          rw [← hp]
          simp [groupStep, hlook]
        rw [hstep]
        exact groupFold_keys_mono r rest _ e.filePath
          (self_mem_addImports_keys g e.filePath e.importNames)
      · exact ih (groupStep r g p) n e hp hlook

theorem assocLookup_isSome_of_mem_keys {α : Type} :
    ∀ (m : List (String × α)) (k : String),
      k ∈ m.map Prod.fst → (assocLookup m k).isSome := by
  intro m
  induction m with
  | nil => intro k h; simp at h
  | cons p rest ih =>
      intro k h
      obtain ⟨pk, pv⟩ := p
      rw [assocLookup]
      by_cases hpk : pk = k
      · rw [if_pos hpk]; rfl
      · rw [if_neg hpk]
        simp only [List.map_cons] at h
        rcases List.mem_cons.mp h with h1 | h1
        · exact absurd h1.symm hpk
        · exact ih k h1

theorem addImports_lookup_ne (g : ImportGroups) (fpa : String) (ns : List String)
    (fp : String) (h : ¬ fpa = fp) :
    assocLookup (addImports g fpa ns) fp = assocLookup g fp := by
  cases hlook : assocLookup g fpa with
  | none =>
      simp only [addImports, hlook]
      rw [assocLookup_append]
      cases hfp : assocLookup g fp with
      | none => simp [assocLookup, h]
      | some s => rfl
  | some s =>
      simp only [addImports, hlook]
      unfold assocInsert
      rw [if_pos (by rw [hlook]; rfl), assocLookup_assocUpdate, if_neg h]

/-- When every depth-0 contributor to file path `fp` has an empty
import-name list, the group at `fp` stays absent or empty along the
fold. -/
theorem groupFold_empty_at (r : FragmentRegistry) (fp : String) :
    ∀ (m : List (String × Nat)) (g : ImportGroups),
      (∀ p ∈ m, p.2 = 0 → ∀ e, assocLookup r p.1 = some e → e.filePath = fp →
        e.importNames = []) →
      (assocLookup g fp = none ∨ assocLookup g fp = some []) →
      (assocLookup (m.foldl (groupStep r) g) fp = none ∨
        assocLookup (m.foldl (groupStep r) g) fp = some []) := by
  intro m
  induction m with
  | nil => intro g _ hg; exact hg
  | cons p rest ih =>
      intro g hall hg
      rw [List.foldl_cons]
      refine ih (groupStep r g p) (fun q hq => hall q (List.mem_cons_of_mem p hq)) ?_
      cases hlook : assocLookup r p.1 with
      | none =>
          have hstep : groupStep r g p = g := by simp [groupStep, hlook]
          rw [hstep]
          exact hg
      | some d =>
          by_cases hl : p.2 = 0
          · have hstep : groupStep r g p = addImports g d.filePath d.importNames := by
              simp [groupStep, hlook, hl]
            rw [hstep]
            by_cases hfp : d.filePath = fp
            · have hempty : d.importNames = [] :=
                hall p (List.mem_cons_self p rest) hl d hlook hfp
              rw [hfp, hempty]
              cases hgfp : assocLookup g fp with
              | none =>
                  right
                  simp only [addImports, hgfp]
                  rw [assocLookup_append, hgfp]
                  simp [assocLookup, setOfList]
              | some s =>
                  have hs : s = [] := by
                    rcases hg with hg | hg
                    · rw [hg] at hgfp; cases hgfp
                    · rw [hg] at hgfp; cases hgfp; rfl
                  right
                  simp only [addImports, hgfp]
                  unfold assocInsert
                  rw [if_pos (by rw [hgfp]; rfl), assocLookup_assocUpdate, if_pos rfl,
                    hgfp, hs]
                  rfl
            · rw [addImports_lookup_ne g d.filePath d.importNames fp hfp]
              exact hg
          · rw [groupStep_of_level_ne_zero r g p hl]
            exact hg

/-! ### Shared decomposition of `getAllFragmentSubTypes` -/

theorem getAllFragmentSubTypes_decompose (po : PresetFnArgs) (possibleTypes : List String)
    (name : String) :
    getAllFragmentSubTypes po possibleTypes name =
      docVarNamesSpec po name ++
        typeSpecializedNamesSpec po.baseVisitor possibleTypes name := by
  simp only [getAllFragmentSubTypes, docVarNamesSpec, typeSpecializedNamesSpec]
  by_cases h1 : possibleTypes.length = 1
  · simp [h1]
  · by_cases h0 : possibleTypes.length = 0
    · simp [h1, h0]
    · simp [h1, h0]

/-! ### The claims -/

/-- C1 (counterexample): with the structurally identical fragment `F`
defined first in `A.graphql` and again in `C.graphql`, the build raises
no error, but the registry maps `F` to the entry computed from the
second (last-seen) definition: its file path is `C.generated`, not the
first-seen `A.generated` — the claim's "first-seen entry" is false. -/
theorem c1_counterexample :
    buildFragmentRegistry coFix (presetArgsFor [docA, docC]) schemaUser =
      .ok [("F", { filePath := "C.generated", importNames := ["FFragmentDoc"]
                 , onType := "User", node := fragF })] ∧
    generateFilePathFix docA.location = "A.generated" ∧
    ¬ ("C.generated" : String) = "A.generated" := by
  refine ⟨by decide, by decide, by decide⟩

/-- C1 (amended): for every document set in which every fragment's type
condition resolves, every two same-name fragment definitions have equal
serialized forms, and the name `n` is defined at least twice, the build
raises no error and the resulting registry maps `n` to the entry (the
filePath, importNames, onType and definition) computed from the
last-encountered definition of `n`. -/
theorem c1_registry_keeps_last (co : DocumentImportResolverOptions) (po : PresetFnArgs)
    (schemaObject : GraphQLSchema) (n : String)
    (hres : ∀ p ∈ flatFragments po.documents,
      (schemaObject.getType p.2.typeCondition).isSome)
    (hsame : ∀ p ∈ flatFragments po.documents, ∀ q ∈ flatFragments po.documents,
      p.2.name = q.2.name → printFragment p.2 = printFragment q.2)
    (hdup : 2 ≤ ((flatFragments po.documents).filter (fun q => q.2.name == n)).length) :
    ∃ reg, buildFragmentRegistry co po schemaObject = .ok reg ∧
      ∃ u, ((flatFragments po.documents).filter (fun q => q.2.name == n)).getLast? = some u ∧
        assocLookup reg n = some (entryFor co po schemaObject u.1 u.2) := by
  have hd := dups_empty_of_agree co po schemaObject (flatFragments po.documents) hsame
  have hb := buildFragmentRegistry_eq_pure co po schemaObject hres
  rw [hd] at hb
  rw [if_neg (by simp)] at hb
  refine ⟨_, hb, ?_⟩
  cases hlast : ((flatFragments po.documents).filter (fun q => q.2.name == n)).getLast? with
  | none =>
      rw [List.getLast?_eq_none_iff] at hlast
      rw [hlast] at hdup
      simp at hdup
  | some u =>
      refine ⟨u, rfl, ?_⟩
      rw [registry_lookup_last co po schemaObject (flatFragments po.documents) n, hlast]

/-- C1 (witness): the amended claim at the concrete duplicate-identical
scenario `A.graphql` / `C.graphql`. -/
theorem c1_witness :
    ∃ reg, buildFragmentRegistry coFix (presetArgsFor [docA, docC]) schemaUser = .ok reg ∧
      ∃ u, ((flatFragments [docA, docC]).filter (fun q => q.2.name == "F")).getLast? = some u ∧
        assocLookup reg "F" =
          some (entryFor coFix (presetArgsFor [docA, docC]) schemaUser u.1 u.2) :=
  c1_registry_keeps_last coFix (presetArgsFor [docA, docC]) schemaUser "F"
    (by decide) (by decide) (by decide)

/-- C2: for document `A.graphql` defining `fragment F on User { id }`,
document `B.graphql` containing `query Q { user { ...F } }` and a schema
where `User` is a concrete object type, the build produces a registry
mapping `F` to filePath `A.generated`, importNames exactly
`[FFragmentDoc]` and onType `User`; planning `B.generated` yields
`externalFragments` with the single element `(F, depth 0, User)` and
exactly one import statement importing `FFragmentDoc` from
`A.generated`. -/
theorem c2_scenario :
    buildFragmentRegistry coFix (presetArgsFor [docA, docB]) schemaUser = .ok regC2 ∧
    assocLookup regC2 "F" =
      some { filePath := "A.generated", importNames := ["FFragmentDoc"]
           , onType := "User", node := fragF } ∧
    extractExternalFragmentsInUse docBNode regC2 = [("F", 0)] ∧
    resolveFragments coFix (presetArgsFor [docA, docB]) regC2 "B.generated" docBNode =
      { externalFragments :=
          [{ level := 0, isExternal := true, name := "F", onType := "User", node := fragF }]
      , fragmentImportStatements := ["import \x7b FFragmentDoc \x7d from './A.generated'"] } := by
  refine ⟨by decide, by decide, by decide, by decide⟩

/-- C3: for every document set whose fragments all have resolvable type
conditions and in which at least one fragment name is defined with two
different serialized bodies, the build scans to completion and fails
with exactly one error whose message comma-joins the recorded duplicate
names, and every conflicting name is in that list. -/
theorem c3_duplicate_conflicts_batched (co : DocumentImportResolverOptions)
    (po : PresetFnArgs) (schemaObject : GraphQLSchema)
    (hres : ∀ p ∈ flatFragments po.documents,
      (schemaObject.getType p.2.typeCondition).isSome)
    (hconf : ∃ n, conflictingName (flatFragments po.documents) n) :
    buildFragmentRegistry co po schemaObject =
      .error (duplicateMessage (scanDuplicateNames co po schemaObject)) ∧
    scanDuplicateNames co po schemaObject ≠ [] ∧
    duplicateMessage (scanDuplicateNames co po schemaObject) =
      "Multiple fragments with the name(s) \"" ++
        String.intercalate ", " (scanDuplicateNames co po schemaObject) ++
        "\" were found." ∧
    (∀ n, conflictingName (flatFragments po.documents) n →
      n ∈ scanDuplicateNames co po schemaObject) := by
  have hmem : ∀ n, conflictingName (flatFragments po.documents) n →
      n ∈ scanDuplicateNames co po schemaObject := fun n hc =>
    mem_dups_of_conflict co po schemaObject (flatFragments po.documents) n hc
  have hne : scanDuplicateNames co po schemaObject ≠ [] := by
    obtain ⟨n, hc⟩ := hconf
    intro hemp
    have hn := hmem n hc
    rw [hemp] at hn
    exact List.not_mem_nil n hn
  have hne2 : ((flatFragments po.documents).foldl (pureBuildStep co po schemaObject)
      initialBuildState).duplicateFragmentNames ≠ [] := hne
  refine ⟨?_, hne, rfl, hmem⟩
  rw [buildFragmentRegistry_eq_pure co po schemaObject hres, if_pos hne2]
  rfl

/-- C3 (witness): the concrete conflicting scenario, `F` defined with
body `id` in `A.graphql` and body `id name` in `D.graphql`. -/
theorem c3_witness :
    buildFragmentRegistry coFix (presetArgsFor [docA, docD]) schemaUser =
      .error (duplicateMessage
        (scanDuplicateNames coFix (presetArgsFor [docA, docD]) schemaUser)) ∧
    scanDuplicateNames coFix (presetArgsFor [docA, docD]) schemaUser ≠ [] := by
  have h := c3_duplicate_conflicts_batched coFix (presetArgsFor [docA, docD]) schemaUser
    (by decide)
    ⟨"F", ("A.graphql", fragF), by decide, ("D.graphql", fragF2), by decide,
      rfl, rfl, by decide⟩
  exact ⟨h.1, h.2.1⟩

/-- C4: for every document set containing a fragment whose type
condition does not resolve, where all fragments before it (in document
then definition order) resolve, the build fails with the error naming
that fragment and the missing type, independently of everything after
it; no registry is returned. -/
theorem c4_unknown_type_aborts (co : DocumentImportResolverOptions) (po : PresetFnArgs)
    (schemaObject : GraphQLSchema) (pre post : List (String × FragmentDefinitionNode))
    (location : String) (f : FragmentDefinitionNode)
    (hsplit : flatFragments po.documents = pre ++ (location, f) :: post)
    (hpre : ∀ p ∈ pre, (schemaObject.getType p.2.typeCondition).isSome)
    (hf : schemaObject.getType f.typeCondition = none) :
    buildFragmentRegistry co po schemaObject =
      .error (unknownTypeMessage f.name f.typeCondition) := by
  unfold buildFragmentRegistry
  rw [foldlM_documents_flat, hsplit,
    foldlM_fragments_error co po schemaObject pre location f post hpre hf
      { registry := [], duplicateFragmentNames := [] }]
  rfl

/-- C4 (witness): `G` on the non-existing type `Ghost` after the valid
fragment `F`. -/
theorem c4_witness :
    buildFragmentRegistry coFix (presetArgsFor [docA, docBad]) schemaUser =
      .error (unknownTypeMessage "G" "Ghost") :=
  c4_unknown_type_aborts coFix (presetArgsFor [docA, docBad]) schemaUser
    [("A.graphql", fragF)] [] "E.graphql" fragG (by decide) (by decide) (by decide)

/-- C5: for every fragment, the type-specialized part of its
importNames is determined by the cardinality of the possible-type
expansion: exactly one possible type yields one type-specialized name
with no per-type qualifier, `n > 1` possible types yield one name per
possible type, each qualified by that type's name in enumeration order,
and zero possible types yield no type-specialized names. -/
theorem c5_type_specialized_names (po : PresetFnArgs) (possibleTypes : List String)
    (name : String) :
    getAllFragmentSubTypes po possibleTypes name =
      docVarNamesSpec po name ++
        typeSpecializedNamesSpec po.baseVisitor possibleTypes name ∧
    (possibleTypes.length = 1 →
      typeSpecializedNamesSpec po.baseVisitor possibleTypes name =
        [po.baseVisitor.convertName name true (po.baseVisitor.getFragmentSuffix name)]) ∧
    (1 < possibleTypes.length →
      typeSpecializedNamesSpec po.baseVisitor possibleTypes name =
        possibleTypes.map (fun typeName =>
          po.baseVisitor.convertName name true
            ("_" ++ typeName ++ "_" ++ po.baseVisitor.getFragmentSuffix name))) ∧
    (possibleTypes.length = 0 →
      typeSpecializedNamesSpec po.baseVisitor possibleTypes name = []) := by
  refine ⟨getAllFragmentSubTypes_decompose po possibleTypes name, ?_, ?_, ?_⟩
  · intro h1
    simp [typeSpecializedNamesSpec, h1]
  · intro hgt
    have h1 : ¬ possibleTypes.length = 1 := by omega
    have h0 : ¬ possibleTypes.length = 0 := by omega
    simp [typeSpecializedNamesSpec, h1, h0]
  · intro h0
    have h1 : ¬ possibleTypes.length = 1 := by omega
    simp [typeSpecializedNamesSpec, h0, h1]

/-- C5 (witness): a condition type with the two possible types `Admin`
and `Member` yields the two per-type qualified names in order. -/
theorem c5_witness :
    getAllFragmentSubTypes (presetArgsFor []) ["Admin", "Member"] "F" =
      docVarNamesSpec (presetArgsFor []) "F" ++
        typeSpecializedNamesSpec (presetArgsFor []).baseVisitor ["Admin", "Member"] "F" ∧
    typeSpecializedNamesSpec (presetArgsFor []).baseVisitor ["Admin", "Member"] "F" =
      ["F_Admin_FragmentDoc", "F_Member_FragmentDoc"] := by
  have h := c5_type_specialized_names (presetArgsFor []) ["Admin", "Member"] "F"
  refine ⟨h.1, ?_⟩
  rw [h.2.2.1 (by decide)]
  decide

/-- C6: the document-variable symbol is the head of importNames exactly
when the configuration includes a document-value plugin and the
configured document mode is none of the node-based / external modes;
otherwise importNames consists of the type-specialized names only. -/
theorem c6_doc_var_symbol (po : PresetFnArgs) (possibleTypes : List String)
    (name : String) :
    getAllFragmentSubTypes po possibleTypes name =
      (if isUsingDocVarPlugin po.plugins = true ∧
          po.documentMode.getD DocumentMode.graphQLTag ≠ DocumentMode.documentNode ∧
          po.documentMode.getD DocumentMode.graphQLTag ≠ DocumentMode.external ∧
          po.documentMode.getD DocumentMode.graphQLTag ≠
            DocumentMode.documentNodeImportFragments
        then [po.baseVisitor.getFragmentVariableName name] else []) ++
        typeSpecializedNamesSpec po.baseVisitor possibleTypes name := by
  rw [getAllFragmentSubTypes_decompose]
  rfl

/-- C7: only depth-0 registered pairs contribute import names to the
groups (the groups of the full depth map equal the groups of its depth-0
restriction), every group is duplicate-free (set semantics), and a
registered pair of positive depth still appears in externalFragments. -/
theorem c7_depth_zero_imports (r : FragmentRegistry) (m : List (String × Nat))
    (n : String) (d : Nat) (e : FragmentRegistryEntry)
    (hmem : (n, d) ∈ m) (_hd : 0 < d) (hlook : assocLookup r n = some e) :
    (planState r m).2 = (m.filter (fun p => p.2 == 0)).foldl (groupStep r) [] ∧
    (∀ q ∈ (planState r m).2, q.2.Nodup) ∧
    n ∈ (planState r m).1.map (fun ef => ef.name) := by
  refine ⟨?_, ?_, ?_⟩
  · simp only [planState]
    rw [planFold_snd, groupFold_filter_level_zero]
  · intro q hq
    simp only [planState] at hq
    rw [planFold_snd] at hq
    exact groupFold_nodup r m [] (fun q2 hq2 => absurd hq2 (List.not_mem_nil q2)) q hq
  · simp only [planState]
    rw [planFold_fst]
    simp only [List.nil_append]
    have hin : ({ level := d, isExternal := true, name := n
                , onType := e.onType, node := e.node } : ExternalFragment) ∈
        m.filterMap (fun p => (assocLookup r p.1).map (fun e2 =>
          { level := p.2, isExternal := true, name := p.1
          , onType := e2.onType, node := e2.node })) :=
      List.mem_filterMap.mpr ⟨(n, d), hmem, by rw [hlook]; rfl⟩
    exact List.mem_map_of_mem (fun ef => ef.name) hin

/-- C7 (witness): a fragment referenced at depth 1 only appears in
externalFragments. -/
theorem c7_witness : "F" ∈ (planState regC2 [("F", 1)]).1.map (fun ef => ef.name) :=
  (c7_depth_zero_imports regC2 [("F", 1)] "F" 1 entryFA (by decide) (by decide)
    (by decide)).2.2

/-- C8: a depth-map name absent from the registry is silently skipped:
the plan is unchanged when all pairs with that name are dropped, the
name appears in no externalFragments element, and the planner's result
(import statements included) is unchanged. -/
theorem c8_unregistered_skipped (r : FragmentRegistry) (m : List (String × Nat))
    (n : String) (d : Nat) (_hmem : (n, d) ∈ m) (hlook : assocLookup r n = none) :
    planState r m = planState r (m.filter (fun p => !(p.1 == n))) ∧
    n ∉ (planState r m).1.map (fun ef => ef.name) ∧
    (∀ (co : DocumentImportResolverOptions) (po : PresetFnArgs) (out : String),
      resolveFragmentsCore co po r out m =
        resolveFragmentsCore co po r out (m.filter (fun p => !(p.1 == n)))) := by
  have h1 : planState r m = planState r (m.filter (fun p => !(p.1 == n))) := by
    simp only [planState]
    rw [planFold_skip_unregistered r n hlook m]
  refine ⟨h1, ?_, ?_⟩
  · intro hcontra
    simp only [planState] at hcontra
    rw [planFold_fst] at hcontra
    simp only [List.nil_append] at hcontra
    obtain ⟨ef, hef, hname⟩ := List.mem_map.mp hcontra
    obtain ⟨p, hp, hsome⟩ := List.mem_filterMap.mp hef
    cases hlp : assocLookup r p.1 with
    | none => rw [hlp] at hsome; cases hsome
    | some e =>
        rw [hlp] at hsome
        simp only [Option.map_some'] at hsome
        injection hsome with hef2
        rw [← hef2] at hname
        have hp1 : p.1 = n := hname
        rw [hp1] at hlp
        rw [hlook] at hlp
        cases hlp
  · intro co po out
    simp only [resolveFragmentsCore, h1]

/-- C8 (witness): the name `Ghost`, absent from the registry, appears in
no externalFragments element. -/
theorem c8_witness : "Ghost" ∉ (planState regC2 [("Ghost", 0)]).1.map (fun ef => ef.name) :=
  (c8_unregistered_skipped regC2 [("Ghost", 0)] "Ghost" 0 (by decide) (by decide)).2.1

/-- C9: externalFragments is exactly the depth map traversed in
iteration order, keeping registered names and emitting the pair's
depth, isExternal true, the name, and the entry's onType and
definition. -/
theorem c9_external_fragments_order (co : DocumentImportResolverOptions)
    (po : PresetFnArgs) (r : FragmentRegistry) (out : String)
    (m : List (String × Nat)) :
    (resolveFragmentsCore co po r out m).externalFragments =
      m.filterMap (fun p => (assocLookup r p.1).map (fun e =>
        { level := p.2, isExternal := true, name := p.1
        , onType := e.onType, node := e.node })) := by
  simp only [resolveFragmentsCore, planState]
  rw [planFold_fst]
  simp

/-- C10: a depth-0 registered fragment whose entry has an empty
importNames list (and whose file path receives no other import names)
still creates an import group for its file path, and the import
statement generator is invoked for that group with an empty names
sequence, so an import statement is emitted. -/
theorem c10_empty_import_names_group (co : DocumentImportResolverOptions)
    (po : PresetFnArgs) (r : FragmentRegistry) (out : String)
    (m : List (String × Nat)) (n : String) (e : FragmentRegistryEntry)
    (hmem : (n, 0) ∈ m) (hlook : assocLookup r n = some e)
    (hempty : ∀ p ∈ m, p.2 = 0 → ∀ e2, assocLookup r p.1 = some e2 →
      e2.filePath = e.filePath → e2.importNames = []) :
    e.filePath ∈ (planState r m).2.map Prod.fst ∧
    (e.filePath, ([] : List String)) ∈ (planState r m).2 ∧
    co.generateImportStatement
      { baseOutputDir := po.baseOutputDir, relativeOutputPath := out
      , importSource := { path := e.filePath, names := [] } } ∈
      (resolveFragmentsCore co po r out m).fragmentImportStatements := by
  have h2 : (planState r m).2 = m.foldl (groupStep r) [] := by
    simp only [planState]
    rw [planFold_snd]
  have hkey : e.filePath ∈ (m.foldl (groupStep r) []).map Prod.fst :=
    filePath_mem_groupFold_keys r m [] n e hmem hlook
  have hval : (e.filePath, ([] : List String)) ∈ m.foldl (groupStep r) [] := by
    have hinv := groupFold_empty_at r e.filePath m [] hempty (Or.inl rfl)
    rcases hinv with hnone | hsome
    · have := assocLookup_isSome_of_mem_keys (m.foldl (groupStep r) []) e.filePath hkey
      rw [hnone] at this
      cases this
    · exact assocLookup_mem hsome
  refine ⟨by rw [h2]; exact hkey, by rw [h2]; exact hval, ?_⟩
  simp only [resolveFragmentsCore]
  have hval2 : (e.filePath, ([] : List String)) ∈ (planState r m).2 := by
    rw [h2]; exact hval
  exact List.mem_map_of_mem _ hval2

/-- C10 (witness): the registered fragment `F` with an empty import-name
list still produces the group `(A.generated, [])`. -/
theorem c10_witness : (entryEmptyW.filePath, ([] : List String)) ∈
    (planState regEmptyW [("F", 0)]).2 :=
  (c10_empty_import_names_group coFix (presetArgsFor []) regEmptyW "B.generated"
    [("F", 0)] "F" entryEmptyW (by decide) (by decide)
    (by
      intro p hp hz e2 he2 hfp
      have hpF : p = ("F", 0) := List.mem_singleton.mp hp
      rw [hpF] at he2
      have he : some entryEmptyW = some e2 := by rw [← he2]; decide
      injection he with he3
      rw [← he3]
      decide)).2.1

end FragmentResolver
